import Mathlib

/-!
Verification of the in-memory retrieval store of `tools/ingestion.py`
(class `DataIngestionTool` plus the module-level globals `doc_chunks`,
`doc_embeddings`).

Embedding conventions:
* Python strings are Lean `String`s; token lists are kept as `List Char`
  words so that re-tokenization can be reasoned about.
* Python `str.split()` (split on whitespace runs, no empty tokens) is
  `splitWordsC`; `" ".join` is `joinSp`; `"\n\n".join` is `joinNl`.
* Python `range(start, stop, step)` — including the `ValueError` raised on a
  zero step and the empty result of a negative step with `start = 0 ≤ stop` —
  is `pyRange`.  Its loops are written with an explicit fuel argument (the
  start/stop gap, which bounds the iteration count, see `rangeUpF_eq`) so
  that every definition stays structurally recursive and kernel-evaluable.
* Machine floats are replaced by exact arithmetic: stored vectors are
  `List ℚ`.  Cosine similarity `d / √(nu·nv)` (`nu`, `nv` squared norms) is
  represented by the pair `simParts = (d, nu·nv)`, and similarities are
  compared division-free through the strictly monotone map `x ↦ x·|x|`
  followed by cross-multiplication (`keyLt`, `keyEq`); the lemmas
  `keyLt_iff_cosSim_lt` and `keyEq_iff_cosSim_eq` prove that these decisions
  agree exactly with comparing the real-valued `cosSim`, so ranking by the
  keys is ranking by cosine similarity.  sklearn's zero-norm convention (a
  zero-magnitude row keeps similarity 0) is the `(0, 1)` branch of
  `simParts`.
* `np.argsort` with its default sort fixes **no tie order**: introsort only
  degenerates to a stable insertion sort on short arrays (such as the
  two-element counterexample below), and for longer arrays equal-keyed
  indices may come out in any order.  The model `argsortQ` is one concrete
  refinement of that unspecified behavior — a stable argsort, realized as an
  insertion sort over `List.range n` with the lexicographic (value, index)
  comparator.  Theorems below depend on the refined tie order only at the
  small concrete counterexample input, where numpy's insertion-sort path
  makes the refinement exact; every universal statement proven about the
  ranking (permutation of `0..n-1`, descending similarity, top-`k` count)
  holds for **any** valid argsort and is therefore tie-insensitive.
* The external collaborators (PDF text extraction, HTTP fetch, transcript
  download, the sentence-transformers `model.encode`) are parameters of the
  ingestion/search functions; fallible ones return `Except`.  A raised
  exception in Python corresponds to an `Except.error` value, and the
  `try/except` blocks of the source correspond to `match` on that value.
-/

/-- Python `str.split()` on a character list: whitespace runs delimit tokens,
leading/trailing whitespace produces no empty tokens (`ingestion.py` line 64,
`text.split()`).  Structural formulation: a non-whitespace character either
starts a new token (next character is whitespace or the end) or is prepended
to the token started by the next character. -/
def splitWordsC : List Char → List (List Char)
  | [] => []
  | [c] => if c.isWhitespace then [] else [[c]]
  | c :: d :: rest =>
    if c.isWhitespace then splitWordsC (d :: rest)
    else if d.isWhitespace then [c] :: splitWordsC (d :: rest)
    else
      match splitWordsC (d :: rest) with
      | [] => [[c]]
      | w :: t => (c :: w) :: t

/-- Python `" ".join(words)` on token character lists (`ingestion.py` line 65). -/
def joinSp (ws : List (List Char)) : List Char :=
  match ws with
  | [] => []
  | [w] => w
  | w :: rest => w ++ ' ' :: joinSp rest

/-- Python `"\n\n".join(strings)` (`ingestion.py` line 174). -/
def joinNl (l : List String) : String :=
  match l with
  | [] => ""
  | [s] => s
  | s :: rest => s ++ "\n\n" ++ joinNl rest

/-- The one exception kind the modelled pure code can raise:
`range()` with a zero step raises `ValueError`. -/
inductive PyErr
  | valueError
deriving DecidableEq

/-- Upward `range` loop: elements `start, start+step, …` while `< stop`
(Python semantics for a positive step), with explicit fuel. -/
def rangeUpF : Nat → Int → Int → Int → List Int
  | 0, _, _, _ => []
  | fuel + 1, start, stop, step =>
    if start < stop then start :: rangeUpF fuel (start + step) stop step else []

/-- Downward `range` loop: elements `start, start+step, …` while `> stop`
(Python semantics for a negative step), with explicit fuel. -/
def rangeDownF : Nat → Int → Int → Int → List Int
  | 0, _, _, _ => []
  | fuel + 1, start, stop, step =>
    if stop < start then start :: rangeDownF fuel (start + step) stop step else []

/-- Python `range(start, stop, step)`: raises `ValueError` when `step = 0`,
otherwise iterates up or down (`ingestion.py` line 65 uses
`range(0, len(words), size)`).  The fuel `(stop - start).toNat`
(resp. `(start - stop).toNat`) bounds the iteration count because each
iteration moves `start` by at least one toward `stop`. -/
def pyRange (start stop step : Int) : Except PyErr (List Int) :=
  if 0 < step then .ok (rangeUpF (stop - start).toNat start stop step)
  else if step < 0 then .ok (rangeDownF (start - stop).toNat start stop step)
  else .error .valueError

/-- Python slice `l[a:b]` for the index ranges the source actually executes
(`0 ≤ a`, `b = a + size` with a positive `size`): drop `a`, take `b - a`,
clamped at the end of the list. -/
def pySliceW (l : List (List Char)) (a b : Int) : List (List Char) :=
  (l.drop a.toNat).take (b - a).toNat

/-- Default chunk size (`ingestion.py` line 24, `CHUNK_SIZE = 300`). -/
def CHUNK_SIZE : Int := 300

/-- `DataIngestionTool.split_text` (`ingestion.py` lines 62–65):
`words = text.split()`;
`return [" ".join(words[i:i + size]) for i in range(0, len(words), size)]`.
The comprehension evaluates `range` first, so a zero `size` raises before any
chunk is built, and a negative `size` yields an empty index list. -/
def split_text (text : String) (size : Int) : Except PyErr (List String) :=
  (pyRange 0 ((splitWordsC text.toList).length : Int) size).map
    (fun idxs => idxs.map
      (fun i => String.mk (joinSp (pySliceW (splitWordsC text.toList) i (i + size)))))

example : split_text "apple banana cherry date elderberry" 2 =
    .ok ["apple banana", "cherry date", "elderberry"] := rfl

example : split_text "a b c" (-1) = .ok [] := rfl

example : split_text "a b c" 0 = .error .valueError := rfl

example : split_text "   " 5 = .ok [] := rfl

example : split_text " a  bb\tc\nd " 3 = .ok ["a bb c", "d"] := rfl

/-- The module-level global state (`ingestion.py` lines 31–32:
`doc_chunks, doc_embeddings = [], []`): the current chunk list and the
current embedding matrix (one row per embedded text). -/
structure RagState where
  doc_chunks : List String
  doc_embeddings : List (List ℚ)
deriving DecidableEq

/-- The initial global state (`ingestion.py` line 32). -/
def initialState : RagState := ⟨[], []⟩

/-- Success message of `ingest_from_pdf` (`ingestion.py` line 74). -/
def pdfSuccessMsg (n : Nat) : String :=
  "✅ Processed " ++ toString n ++ " chunks from PDF."

/-- Failure message of `ingest_from_pdf` (`ingestion.py` line 76). -/
def pdfFailMsg (e : String) : String := "❌ Failed to process PDF: " ++ e

/-- Success message of `ingest_from_website` (`ingestion.py` line 138). -/
def webSuccessMsg (url : String) (n : Nat) : String :=
  "✅ Successfully ingested website from " ++ url ++ ". " ++ toString n ++ " chunks created."

/-- Failure message of `ingest_from_website` (`ingestion.py` line 140). -/
def webFailMsg (url : String) (e : String) : String :=
  "❌ Error ingesting website from " ++ url ++ ": " ++ e

/-- Success message of `ingest_from_youtube` (`ingestion.py` line 151). -/
def ytSuccessMsg (n : Nat) : String :=
  "✅ Successfully ingested YouTube transcript. " ++ toString n ++ " chunks created."

/-- Failure message of `ingest_from_youtube` (`ingestion.py` line 153). -/
def ytFailMsg (e : String) : String := "❌ Error ingesting YouTube transcript: " ++ e

/-- Success message of `ingest_from_text` (`ingestion.py` line 161). -/
def textSuccessMsg (n : Nat) : String :=
  "✅ Successfully ingested pasted text. " ++ toString n ++ " chunks created."

/-- Failure message of `ingest_from_text` (`ingestion.py` line 163). -/
def textFailMsg (e : String) : String := "❌ Error ingesting text: " ++ e

/-- Message text of the modelled `ValueError` (never reached by the
ingestion entry points, whose chunk size is the positive `CHUNK_SIZE`). -/
def pyErrMsg : PyErr → String
  | .valueError => "range() arg 3 must not be zero"

/-- `DataIngestionTool.ingest_from_text` (`ingestion.py` lines 155–163).
`encode` is the external `model.encode` collaborator; an exception it raises
is an `Except.error`.  The source executes, inside `try`:
`doc_chunks = self.split_text(text)` **then**
`doc_embeddings = model.encode(doc_chunks, ...)`; the two global assignments
are sequential, so a failing `encode` happens after `doc_chunks` has already
been replaced, and the `except` branch returns with the store in that mixed
state. -/
def ingest_from_text (encode : List String → Except String (List (List ℚ)))
    (st : RagState) (text : String) : RagState × String :=
  match split_text text CHUNK_SIZE with
  | .error e => (st, textFailMsg (pyErrMsg e))
  | .ok chunks =>
    match encode chunks with
    | .error e => (⟨chunks, st.doc_embeddings⟩, textFailMsg e)
    | .ok embs => (⟨chunks, embs⟩, textSuccessMsg chunks.length)

/-- `DataIngestionTool.ingest_from_pdf` (`ingestion.py` lines 67–76).
`extract` is `self.extract_pdf_text` together with the `PdfReader`
collaborator (lines 78–81); it runs before either global assignment, so its
failure leaves the store untouched. -/
def ingest_from_pdf (extract : String → Except String String)
    (encode : List String → Except String (List (List ℚ)))
    (st : RagState) (file_obj : String) : RagState × String :=
  match extract file_obj with
  | .error e => (st, pdfFailMsg e)
  | .ok text =>
    match split_text text CHUNK_SIZE with
    | .error e => (st, pdfFailMsg (pyErrMsg e))
    | .ok chunks =>
      match encode chunks with
      | .error e => (⟨chunks, st.doc_embeddings⟩, pdfFailMsg e)
      | .ok embs => (⟨chunks, embs⟩, pdfSuccessMsg chunks.length)

/-- `DataIngestionTool.ingest_from_website` (`ingestion.py` lines 129–140).
`fetch` is the `requests.get` + BeautifulSoup paragraph-extraction
collaborator (lines 133–135), which runs before the global assignments. -/
def ingest_from_website (fetch : String → Except String String)
    (encode : List String → Except String (List (List ℚ)))
    (st : RagState) (url : String) : RagState × String :=
  match fetch url with
  | .error e => (st, webFailMsg url e)
  | .ok text =>
    match split_text text CHUNK_SIZE with
    | .error e => (st, webFailMsg url (pyErrMsg e))
    | .ok chunks =>
      match encode chunks with
      | .error e => (⟨chunks, st.doc_embeddings⟩, webFailMsg url e)
      | .ok embs => (⟨chunks, embs⟩, webSuccessMsg url chunks.length)

/-- `DataIngestionTool.ingest_from_youtube` (`ingestion.py` lines 142–153).
`fetchTranscript` is the url-parsing + `YouTubeTranscriptApi` + join
collaborator (lines 146–148), which runs before the global assignments. -/
def ingest_from_youtube (fetchTranscript : String → Except String String)
    (encode : List String → Except String (List (List ℚ)))
    (st : RagState) (url : String) : RagState × String :=
  match fetchTranscript url with
  | .error e => (st, ytFailMsg e)
  | .ok text =>
    match split_text text CHUNK_SIZE with
    | .error e => (st, ytFailMsg (pyErrMsg e))
    | .ok chunks =>
      match encode chunks with
      | .error e => (⟨chunks, st.doc_embeddings⟩, ytFailMsg e)
      | .ok embs => (⟨chunks, embs⟩, ytSuccessMsg chunks.length)

/-- Dot product of two rational vectors (`np.dot` restricted to the
equal-length uses of the source). -/
def dotQ : List ℚ → List ℚ → ℚ
  | a :: as, b :: bs => a * b + dotQ as bs
  | _, _ => 0

/-- The (numerator, positive squared-denominator) pair representing the cosine
similarity `d / √(nu·nv)` of two vectors, with sklearn's zero-norm
convention: a zero-magnitude vector has similarity `0` (represented as
`0 / √1`). -/
def simParts (u v : List ℚ) : ℚ × ℚ :=
  if dotQ u u = 0 ∨ dotQ v v = 0 then (0, 1) else (dotQ u v, dotQ u u * dotQ v v)

/-- Exact order on represented similarities: `d₁/√m₁ < d₂/√m₂` iff (after the
strictly monotone map `x ↦ x·|x|` and cross-multiplication by `m₁·m₂ > 0`)
`d₁·|d₁|·m₂ < d₂·|d₂|·m₁`; see `keyLt_iff_cosSim_lt`. -/
def keyLt (p q : ℚ × ℚ) : Prop :=
  p.1 * |p.1| * q.2 < q.1 * |q.1| * p.2

/-- Exact equality of represented similarities (same transform as `keyLt`);
see `keyEq_iff_cosSim_eq`. -/
def keyEq (p q : ℚ × ℚ) : Prop :=
  p.1 * |p.1| * q.2 = q.1 * |q.1| * p.2

instance (p q : ℚ × ℚ) : Decidable (keyLt p q) := by unfold keyLt; infer_instance

instance (p q : ℚ × ℚ) : Decidable (keyEq p q) := by unfold keyEq; infer_instance

/-- The real-valued cosine similarity computed by
`sklearn.metrics.pairwise.cosine_similarity` (`ingestion.py` line 172):
`d / √(nu·nv)`, with similarity `0` against a zero-magnitude vector. -/
noncomputable def cosSim (u v : List ℚ) : ℝ :=
  ((simParts u v).1 : ℝ) / Real.sqrt (((simParts u v).2 : ℚ) : ℝ)

/-- The similarity row `sims = cosine_similarity(query_emb, doc_embeddings)[0]`
(`ingestion.py` line 172), one represented similarity per stored row. -/
def simList (qe : List ℚ) (embs : List (List ℚ)) : List (ℚ × ℚ) :=
  embs.map (fun v => simParts qe v)

/-- Comparator of a stable ascending argsort: compare similarity values,
break ties by ascending index.  The out-of-range default `(0, 1)` is never
consulted on indices produced by `argsortQ`. -/
def simLe (xs : List (ℚ × ℚ)) (i j : Nat) : Bool :=
  decide (keyLt (xs.getD i (0, 1)) (xs.getD j (0, 1)) ∨
    (keyEq (xs.getD i (0, 1)) (xs.getD j (0, 1)) ∧ i ≤ j))

/-- Insert into a sorted list (insertion-sort step). -/
def insertAsc (le : Nat → Nat → Bool) (x : Nat) : List Nat → List Nat
  | [] => [x]
  | y :: ys => if le x y then x :: y :: ys else y :: insertAsc le x ys

/-- Insertion sort. -/
def isort (le : Nat → Nat → Bool) : List Nat → List Nat
  | [] => []
  | x :: xs => insertAsc le x (isort le xs)

/-- `np.argsort(sims)` (`ingestion.py` line 173) under the stable-tie
refinement: the index list `0, …, n-1` sorted by value ascending, ties by
ascending index.  numpy's default introsort guarantees this tie order only
where it degenerates to insertion sort (short arrays); for longer arrays it
specifies no tie order at all — see the header note on which theorems may
rely on the refined tie order. -/
def argsortQ (xs : List (ℚ × ℚ)) : List Nat :=
  isort (simLe xs) (List.range xs.length)

/-- The ranked index list `np.argsort(sims)[::-1]` (`ingestion.py` line 173):
similarity descending; in the stable-tie refinement modelled by `argsortQ`,
the reversal turns ascending-index ties into descending-index ties. -/
def rankedIndices (embed : String → List ℚ) (st : RagState) (query : String) :
    List Nat :=
  (argsortQ (simList (embed query) st.doc_embeddings)).reverse

/-- `DataIngestionTool.get_top_chunks` (`ingestion.py` lines 165–177).
`embed` is `model.encode` on the single-element batch `[query]` (line 171),
returning the query vector.  Modelled behavior of the source:
* line 168: empty chunk list, or a `doc_embeddings` that is not a non-empty
  ndarray (the initial `[]`, or the empty encode output), returns `None`;
* line 172 raises `ValueError` inside `try` when the stored rows' dimension
  differs from the query vector's, and the `except` branch (lines 175–177)
  logs and returns `None`;
* otherwise the top `k` of the reverse-argsorted indices select chunks, the
  comprehension guard `if i < len(doc_chunks)` drops out-of-range indices
  (reachable when a failed ingestion left stale embeddings), and the chunks
  are joined with blank lines. -/
def get_top_chunks (embed : String → List ℚ) (st : RagState) (query : String)
    (k : Nat) : Option String :=
  if st.doc_chunks = [] ∨ st.doc_embeddings = [] then none
  else
    let qe := embed query
    if st.doc_embeddings.any (fun v => v.length ≠ qe.length) then none
    else
      some (joinNl (((rankedIndices embed st query).take k).filter
        (fun i => i < st.doc_chunks.length) |>.map
          (fun i => st.doc_chunks.getD i "")))

example : get_top_chunks (fun _ => [1, 0]) initialState "q" 3 = none := by
  decide

example :
    get_top_chunks (fun _ => [1]) ⟨["a", "b"], [[1], [1]]⟩ "q" 2 =
      some "b\n\na" := by
  norm_num [get_top_chunks, rankedIndices, argsortQ, simList, simParts, dotQ,
    isort, insertAsc, simLe, keyLt, keyEq, joinNl, List.getD]
  decide

/-! ### Lemmas about the `range` loops -/

theorem rangeUpF_stop (f : Nat) (a b s : Int) (h : ¬ a < b) :
    rangeUpF f a b s = [] := by
  cases f with
  | zero => rfl
  | succ f => simp [rangeUpF, h]

/-- Closed form of the upward `range` loop: with a positive step and enough
fuel it lists `a + j·s` for `j < ⌈(b - a) / s⌉`. -/
theorem rangeUpF_eq (s : Int) (hs : 0 < s) :
    ∀ (f : Nat) (a b : Int), (b - a).toNat ≤ f →
      rangeUpF f a b s =
        (List.range ((b - a + s - 1) / s).toNat).map (fun j : Nat => a + (j : Int) * s) := by
  have hstop : ∀ a b : Int, b ≤ a → ((b - a + s - 1) / s).toNat = 0 := by
    intro a b hba
    have h1 : b - a + s - 1 ≤ s - 1 := by omega
    have h2 : (b - a + s - 1) / s ≤ (s - 1) / s := Int.ediv_le_ediv hs h1
    have h3 : (s - 1) / s = 0 := Int.ediv_eq_zero_of_lt (by omega) (by omega)
    omega
  intro f
  induction f with
  | zero =>
    intro a b hf
    rw [show (0 : Nat) = (0 : Nat) from rfl, hstop a b (by omega)]
    rfl
  | succ f ih =>
    intro a b hf
    by_cases hab : a < b
    · have hfuel : (b - (a + s)).toNat ≤ f := by omega
      have hx : 0 ≤ b - a - 1 := by omega
      have hdiv : (b - a + s - 1) / s = (b - a - 1) / s + 1 := by
        rw [show b - a + s - 1 = (b - a - 1) + 1 * s by ring,
          Int.add_mul_ediv_right _ _ (by omega : s ≠ 0)]
      have hnn : 0 ≤ (b - a - 1) / s := Int.ediv_nonneg hx (by omega)
      have hc : ((b - a + s - 1) / s).toNat = ((b - a - 1) / s).toNat + 1 := by
        omega
      have htail : b - (a + s) + s - 1 = b - a - 1 := by ring
      rw [show rangeUpF (f + 1) a b s =
            a :: rangeUpF f (a + s) b s by simp [rangeUpF, hab],
          ih (a + s) b hfuel, htail, hc, List.range_succ_eq_map]
      simp only [List.map_cons, List.map_map]
      congr 1
      · push_cast
        ring
      · apply List.map_congr_left
        intro j _
        simp only [Function.comp]
        push_cast
        ring
    · rw [rangeUpF_stop _ _ _ _ hab, hstop a b (by omega)]
      rfl

/-- A downward `range` from `0` to a non-negative stop is empty: the loop
condition `0 > stop` fails immediately. -/
theorem rangeDownF_zero_start (f : Nat) (n s : Int) (hn : 0 ≤ n) :
    rangeDownF f 0 n s = [] := by
  have h : ¬ n < 0 := by omega
  cases f with
  | zero => rfl
  | succ f => simp [rangeDownF, h]

/-- `range(0, n, s)` for positive `s` and `n = N` a natural number:
indices `j · s` for `j < ⌈N / s⌉`, with the count written in `Nat`
arithmetic. -/
theorem pyRange_pos (N S : Nat) (hS : 0 < S) :
    pyRange 0 (N : Int) (S : Int) =
      .ok ((List.range ((N + S - 1) / S)).map (fun j : Nat => (j : Int) * (S : Int))) := by
  have hs : (0 : Int) < (S : Int) := by omega
  have hcount : (((N : Int) - 0 + (S : Int) - 1) / (S : Int)).toNat = (N + S - 1) / S := by
    rw [show ((N : Int) - 0 + (S : Int) - 1) = ((N + S - 1 : Nat) : Int) by omega,
      ← Int.natCast_div, Int.toNat_natCast]
  rw [pyRange, if_pos hs, rangeUpF_eq (S : Int) hs _ 0 (N : Int) (by omega), hcount]
  congr 1
  apply List.map_congr_left
  intro j _
  omega

/-! ### Lemmas about the tokenizer -/

/-- Every token produced by `splitWordsC` is non-empty and contains no
whitespace character. -/
theorem splitWordsC_clean :
    ∀ cs : List Char, ∀ w ∈ splitWordsC cs,
      w ≠ [] ∧ ∀ ch ∈ w, ch.isWhitespace = false := by
  intro cs
  induction cs with
  | nil => intro w hw; simp [splitWordsC] at hw
  | cons c rest ih =>
    intro w hw
    cases rest with
    | nil =>
      by_cases hc : c.isWhitespace
      · simp [splitWordsC, hc] at hw
      · simp [splitWordsC, hc] at hw
        subst hw
        refine ⟨by simp, ?_⟩
        intro ch hch
        simp at hch
        subst hch
        simpa using hc
    | cons d rest' =>
      by_cases hc : c.isWhitespace
      · rw [show splitWordsC (c :: d :: rest') = splitWordsC (d :: rest') by
          simp [splitWordsC, hc]] at hw
        exact ih w hw
      · by_cases hd : d.isWhitespace
        · rw [show splitWordsC (c :: d :: rest') = [c] :: splitWordsC (d :: rest') by
            simp [splitWordsC, hc, hd]] at hw
          rcases List.mem_cons.mp hw with hw | hw
          · subst hw
            refine ⟨by simp, ?_⟩
            intro ch hch
            simp at hch
            subst hch
            simpa using hc
          · exact ih w hw
        · rcases hsp : splitWordsC (d :: rest') with _ | ⟨w', t⟩
          · rw [show splitWordsC (c :: d :: rest') = [[c]] by
              simp [splitWordsC, hc, hd, hsp]] at hw
            simp at hw
            subst hw
            refine ⟨by simp, ?_⟩
            intro ch hch
            simp at hch
            subst hch
            simpa using hc
          · rw [show splitWordsC (c :: d :: rest') = (c :: w') :: t by
              simp [splitWordsC, hc, hd, hsp]] at hw
            rcases List.mem_cons.mp hw with hw | hw
            · subst hw
              have hw' := ih w' (by rw [hsp]; exact List.mem_cons_self _ _)
              refine ⟨by simp, ?_⟩
              intro ch hch
              rcases List.mem_cons.mp hch with h | h
              · subst h; simpa using hc
              · exact hw'.2 ch h
            · exact ih w (by rw [hsp]; exact List.mem_cons_of_mem _ hw)

/-- Whitespace-only input tokenizes to the empty list. -/
theorem splitWordsC_all_ws :
    ∀ cs : List Char, (∀ ch ∈ cs, ch.isWhitespace = true) → splitWordsC cs = [] := by
  intro cs
  induction cs with
  | nil => intro _; rfl
  | cons c rest ih =>
    intro h
    have hc : c.isWhitespace = true := h c (List.mem_cons_self _ _)
    cases rest with
    | nil => simp [splitWordsC, hc]
    | cons d rest' =>
      rw [show splitWordsC (c :: d :: rest') = splitWordsC (d :: rest') by
        simp [splitWordsC, hc]]
      exact ih (fun ch hch => h ch (List.mem_cons_of_mem _ hch))

/-- A leading whitespace character is skipped by the tokenizer. -/
theorem splitWordsC_ws_cons (sp : Char) (hsp : sp.isWhitespace = true)
    (t : List Char) : splitWordsC (sp :: t) = splitWordsC t := by
  cases t with
  | nil => simp [splitWordsC, hsp]
  | cons d rest => simp [splitWordsC, hsp]

/-- A single non-empty whitespace-free word tokenizes to itself. -/
theorem splitWordsC_single :
    ∀ w : List Char, w ≠ [] → (∀ ch ∈ w, ch.isWhitespace = false) →
      splitWordsC w = [w] := by
  intro w
  induction w with
  | nil => intro h _; exact absurd rfl h
  | cons c rest ih =>
    intro _ hclean
    have hc : c.isWhitespace = false := hclean c (List.mem_cons_self _ _)
    cases rest with
    | nil => simp [splitWordsC, hc]
    | cons d rest' =>
      have hd : d.isWhitespace = false := hclean d (by simp)
      have htail : splitWordsC (d :: rest') = [d :: rest'] :=
        ih (by simp) (fun ch hch => hclean ch (List.mem_cons_of_mem _ hch))
      simp [splitWordsC, hc, hd, htail]

/-- A non-empty whitespace-free word followed by a whitespace character is
split off as the first token. -/
theorem splitWordsC_word_append :
    ∀ w : List Char, w ≠ [] → (∀ ch ∈ w, ch.isWhitespace = false) →
      ∀ (sp : Char), sp.isWhitespace = true → ∀ t : List Char,
        splitWordsC (w ++ sp :: t) = w :: splitWordsC t := by
  intro w
  induction w with
  | nil => intro h _; exact absurd rfl h
  | cons c rest ih =>
    intro _ hclean sp hsp t
    have hc : c.isWhitespace = false := hclean c (List.mem_cons_self _ _)
    cases rest with
    | nil =>
      rw [show ([c] ++ sp :: t) = c :: sp :: t from rfl]
      simp [splitWordsC, hc, hsp, splitWordsC_ws_cons sp hsp t]
    | cons d rest' =>
      have hd : d.isWhitespace = false := hclean d (by simp)
      have htail : splitWordsC ((d :: rest') ++ sp :: t) = (d :: rest') :: splitWordsC t :=
        ih (by simp) (fun ch hch => hclean ch (List.mem_cons_of_mem _ hch)) sp hsp t
      rw [show ((c :: d :: rest') ++ sp :: t) = c :: d :: (rest' ++ sp :: t) from rfl]
      rw [show (d :: rest') ++ sp :: t = d :: (rest' ++ sp :: t) from rfl] at htail
      simp [splitWordsC, hc, hd, htail]

/-- Round trip: joining non-empty whitespace-free words with single spaces and
re-tokenizing recovers exactly the word list. -/
theorem splitWordsC_joinSp :
    ∀ ws : List (List Char),
      (∀ w ∈ ws, w ≠ [] ∧ ∀ ch ∈ w, ch.isWhitespace = false) →
      splitWordsC (joinSp ws) = ws := by
  intro ws
  induction ws with
  | nil => intro _; rfl
  | cons w rest ih =>
    intro h
    have hw := h w (List.mem_cons_self _ _)
    cases rest with
    | nil => exact splitWordsC_single w hw.1 hw.2
    | cons w' rest' =>
      rw [show joinSp (w :: w' :: rest') = w ++ ' ' :: joinSp (w' :: rest') from rfl,
        splitWordsC_word_append w hw.1 hw.2 ' ' (by decide) _]
      rw [ih (fun x hx => h x (List.mem_cons_of_mem _ hx))]

/-! ### Closed forms of `split_text` -/

/-- For a positive chunk size `S`, `split_text` produces
`⌈N/S⌉ = (N + S - 1) / S` chunks, the `j`-th being tokens
`[j·S, j·S + S)` re-joined with single spaces. -/
theorem split_text_pos (text : String) (S : Nat) (hS : 0 < S) :
    split_text text (S : Int) =
      .ok ((List.range (((splitWordsC text.toList).length + S - 1) / S)).map
        (fun j : Nat =>
          String.mk (joinSp (((splitWordsC text.toList).drop (j * S)).take S)))) := by
  unfold split_text
  rw [pyRange_pos _ S hS]
  show Except.ok _ = _
  congr 1
  simp only [List.map_map]
  apply List.map_congr_left
  intro j _
  simp only [Function.comp, pySliceW]
  rw [show ((j : Int) * (S : Int)).toNat = j * S by
        rw [← Int.natCast_mul, Int.toNat_natCast],
    show ((j : Int) * (S : Int) + (S : Int) - (j : Int) * (S : Int)).toNat = S by omega]

/-- A zero chunk size raises `ValueError` from `range`. -/
theorem split_text_zero (text : String) : split_text text 0 = .error .valueError := rfl

/-- A negative chunk size yields an empty index list, hence an empty chunk
list, silently. -/
theorem split_text_neg (text : String) (size : Int) (h : size < 0) :
    split_text text size = .ok [] := by
  unfold split_text pyRange
  rw [if_neg (by omega), if_pos h, rangeDownF_zero_start _ _ _ (by omega)]
  rfl

/-- Grouping a list into `take S`-blocks along `range c` and re-joining
recovers the list, provided `c` blocks suffice to cover it. -/
theorem join_groups (S : Nat) :
    ∀ (c : Nat) (ws : List (List Char)), ws.length ≤ c * S →
      ((List.range c).map (fun j : Nat => (ws.drop (j * S)).take S)).flatten = ws := by
  intro c
  induction c with
  | zero =>
    intro ws hlen
    have : ws = [] := List.eq_nil_of_length_eq_zero (by simpa using hlen)
    subst this
    rfl
  | succ c ih =>
    intro ws hlen
    rw [List.range_succ_eq_map, List.map_cons, List.map_map, List.flatten_cons]
    have hhead : (ws.drop (0 * S)).take S = ws.take S := by simp
    have htailfun :
        (List.range c).map ((fun j : Nat => (ws.drop (j * S)).take S) ∘ Nat.succ) =
          (List.range c).map (fun j : Nat => ((ws.drop S).drop (j * S)).take S) := by
      apply List.map_congr_left
      intro j _
      simp only [Function.comp]
      rw [List.drop_drop, Nat.succ_mul]
      congr 2
      omega
    rw [hhead, htailfun, ih (ws.drop S)
      (by simp only [Nat.succ_mul] at hlen; simp only [List.length_drop]; omega)]
    exact List.take_append_drop S ws

/-! ### Lemmas about the insertion sort behind `argsortQ` -/

theorem insertAsc_perm (le : Nat → Nat → Bool) (x : Nat) :
    ∀ l : List Nat, (insertAsc le x l).Perm (x :: l) := by
  intro l
  induction l with
  | nil => exact List.Perm.refl _
  | cons y ys ih =>
    by_cases h : le x y
    · rw [show insertAsc le x (y :: ys) = x :: y :: ys by simp [insertAsc, h]]
    · rw [show insertAsc le x (y :: ys) = y :: insertAsc le x ys by simp [insertAsc, h]]
      exact (ih.cons y).trans (List.Perm.swap x y ys)

theorem isort_perm (le : Nat → Nat → Bool) :
    ∀ l : List Nat, (isort le l).Perm l := by
  intro l
  induction l with
  | nil => exact List.Perm.refl _
  | cons x xs ih => exact (insertAsc_perm le x (isort le xs)).trans (ih.cons x)

theorem insertAsc_sorted (le : Nat → Nat → Bool)
    (htot : ∀ a b, le a b = true ∨ le b a = true)
    (htrans : ∀ a b c, le a b = true → le b c = true → le a c = true) (x : Nat) :
    ∀ l : List Nat, l.Pairwise (fun a b => le a b = true) →
      (insertAsc le x l).Pairwise (fun a b => le a b = true) := by
  intro l
  induction l with
  | nil => intro _; simp [insertAsc]
  | cons y ys ih =>
    intro hl
    rcases List.pairwise_cons.mp hl with ⟨hy, hys⟩
    by_cases h : le x y = true
    · rw [show insertAsc le x (y :: ys) = x :: y :: ys by simp [insertAsc, h]]
      refine List.pairwise_cons.mpr ⟨?_, hl⟩
      intro b hb
      rcases List.mem_cons.mp hb with rfl | hb
      · exact h
      · exact htrans x y b h (hy b hb)
    · rw [show insertAsc le x (y :: ys) = y :: insertAsc le x ys by simp [insertAsc, h]]
      refine List.pairwise_cons.mpr ⟨?_, ih hys⟩
      intro b hb
      rcases List.mem_cons.mp ((insertAsc_perm le x ys).mem_iff.mp hb) with heq | hb
      · rcases htot x y with hxy | hyx
        · exact absurd hxy h
        · rw [heq]; exact hyx
      · exact hy b hb

theorem isort_sorted (le : Nat → Nat → Bool)
    (htot : ∀ a b, le a b = true ∨ le b a = true)
    (htrans : ∀ a b c, le a b = true → le b c = true → le a c = true) :
    ∀ l : List Nat, (isort le l).Pairwise (fun a b => le a b = true) := by
  intro l
  induction l with
  | nil => simp [isort]
  | cons x xs ih => exact insertAsc_sorted le htot htrans x (isort le xs) ih

/-! ### The similarity keys: positivity, order laws, and the bridge to the
real-valued cosine similarity -/

theorem dotQ_self_nonneg : ∀ u : List ℚ, 0 ≤ dotQ u u := by
  intro u
  induction u with
  | nil => exact le_refl _
  | cons a as ih =>
    show 0 ≤ a * a + dotQ as as
    nlinarith [mul_self_nonneg a]

theorem simParts_snd_pos (u v : List ℚ) : 0 < (simParts u v).2 := by
  by_cases h : dotQ u u = 0 ∨ dotQ v v = 0
  · simp [simParts, h]
  · rw [simParts, if_neg h]
    push_neg at h
    have h1 : 0 < dotQ u u := lt_of_le_of_ne (dotQ_self_nonneg u) (Ne.symm h.1)
    have h2 : 0 < dotQ v v := lt_of_le_of_ne (dotQ_self_nonneg v) (Ne.symm h.2)
    exact mul_pos h1 h2

theorem keyLt_trans {p q r : ℚ × ℚ} (hp : 0 < p.2) (hq : 0 < q.2) (hr : 0 < r.2)
    (h1 : keyLt p q) (h2 : keyLt q r) : keyLt p r := by
  unfold keyLt at h1 h2 ⊢
  have a1 := mul_lt_mul_of_pos_right h1 hr
  have a2 := mul_lt_mul_of_pos_right h2 hp
  have h3 : p.1 * |p.1| * q.2 * r.2 < r.1 * |r.1| * q.2 * p.2 := by
    calc p.1 * |p.1| * q.2 * r.2 < q.1 * |q.1| * p.2 * r.2 := a1
    _ = q.1 * |q.1| * r.2 * p.2 := by ring
    _ < r.1 * |r.1| * q.2 * p.2 := a2
  have h4 : p.1 * |p.1| * r.2 * q.2 < r.1 * |r.1| * p.2 * q.2 := by
    calc p.1 * |p.1| * r.2 * q.2 = p.1 * |p.1| * q.2 * r.2 := by ring
    _ < r.1 * |r.1| * q.2 * p.2 := h3
    _ = r.1 * |r.1| * p.2 * q.2 := by ring
  exact lt_of_mul_lt_mul_right h4 hq.le

theorem keyEq_trans {p q r : ℚ × ℚ} (hq : 0 < q.2)
    (h1 : keyEq p q) (h2 : keyEq q r) : keyEq p r := by
  unfold keyEq at h1 h2 ⊢
  have h3 : p.1 * |p.1| * r.2 * q.2 = r.1 * |r.1| * p.2 * q.2 := by
    calc p.1 * |p.1| * r.2 * q.2 = (p.1 * |p.1| * q.2) * r.2 := by ring
    _ = (q.1 * |q.1| * p.2) * r.2 := by rw [h1]
    _ = (q.1 * |q.1| * r.2) * p.2 := by ring
    _ = (r.1 * |r.1| * q.2) * p.2 := by rw [h2]
    _ = r.1 * |r.1| * p.2 * q.2 := by ring
  exact mul_right_cancel₀ (ne_of_gt hq) h3

theorem keyEq_keyLt_trans {p q r : ℚ × ℚ} (hp : 0 < p.2) (hq : 0 < q.2)
    (h1 : keyEq p q) (h2 : keyLt q r) : keyLt p r := by
  unfold keyEq at h1
  unfold keyLt at h2 ⊢
  have a2 := mul_lt_mul_of_pos_right h2 hp
  have h3 : p.1 * |p.1| * r.2 * q.2 < r.1 * |r.1| * p.2 * q.2 := by
    calc p.1 * |p.1| * r.2 * q.2 = (p.1 * |p.1| * q.2) * r.2 := by ring
    _ = (q.1 * |q.1| * p.2) * r.2 := by rw [h1]
    _ = (q.1 * |q.1| * r.2) * p.2 := by ring
    _ < (r.1 * |r.1| * q.2) * p.2 := a2
    _ = r.1 * |r.1| * p.2 * q.2 := by ring
  exact lt_of_mul_lt_mul_right h3 hq.le

theorem keyLt_keyEq_trans {p q r : ℚ × ℚ} (hq : 0 < q.2) (hr : 0 < r.2)
    (h1 : keyLt p q) (h2 : keyEq q r) : keyLt p r := by
  unfold keyLt at h1 ⊢
  unfold keyEq at h2
  have a1 := mul_lt_mul_of_pos_right h1 hr
  have h3 : p.1 * |p.1| * r.2 * q.2 < r.1 * |r.1| * p.2 * q.2 := by
    calc p.1 * |p.1| * r.2 * q.2 = (p.1 * |p.1| * q.2) * r.2 := by ring
    _ < (q.1 * |q.1| * p.2) * r.2 := a1
    _ = (q.1 * |q.1| * r.2) * p.2 := by ring
    _ = (r.1 * |r.1| * q.2) * p.2 := by rw [h2]
    _ = r.1 * |r.1| * p.2 * q.2 := by ring
  exact lt_of_mul_lt_mul_right h3 hq.le

theorem key_trichotomy (p q : ℚ × ℚ) : keyLt p q ∨ keyEq p q ∨ keyLt q p := by
  unfold keyLt keyEq
  rcases lt_trichotomy (p.1 * |p.1| * q.2) (q.1 * |q.1| * p.2) with h | h | h
  · exact Or.inl h
  · exact Or.inr (Or.inl h)
  · exact Or.inr (Or.inr h)

theorem keyEq_symm {p q : ℚ × ℚ} (h : keyEq p q) : keyEq q p := h.symm

theorem keyEq_refl (p : ℚ × ℚ) : keyEq p p := rfl

/-- Every key consulted by the comparator — a list entry or the out-of-range
default `(0, 1)` — has a positive second component when the list consists of
`simParts` outputs. -/
theorem simList_getD_snd_pos (qe : List ℚ) (embs : List (List ℚ)) (i : Nat) :
    0 < ((simList qe embs).getD i (0, 1)).2 := by
  by_cases h : i < (simList qe embs).length
  · rw [List.getD_eq_getElem _ _ h]
    have hmem : (simList qe embs)[i] ∈ simList qe embs := List.getElem_mem h
    rcases List.mem_map.mp hmem with ⟨v, _, hv⟩
    rw [← hv]
    exact simParts_snd_pos qe v
  · rw [List.getD_eq_default _ _ (by omega)]
    norm_num

theorem simLe_total (xs : List (ℚ × ℚ)) (i j : Nat) :
    simLe xs i j = true ∨ simLe xs j i = true := by
  unfold simLe
  rw [decide_eq_true_eq, decide_eq_true_eq]
  rcases key_trichotomy (xs.getD i (0, 1)) (xs.getD j (0, 1)) with h | h | h
  · exact Or.inl (Or.inl h)
  · rcases Nat.le_total i j with hij | hij
    · exact Or.inl (Or.inr ⟨h, hij⟩)
    · exact Or.inr (Or.inr ⟨keyEq_symm h, hij⟩)
  · exact Or.inr (Or.inl h)

theorem simLe_trans (qe : List ℚ) (embs : List (List ℚ)) (i j k : Nat)
    (h1 : simLe (simList qe embs) i j = true)
    (h2 : simLe (simList qe embs) j k = true) :
    simLe (simList qe embs) i k = true := by
  have hp := simList_getD_snd_pos qe embs i
  have hq := simList_getD_snd_pos qe embs j
  have hr := simList_getD_snd_pos qe embs k
  unfold simLe at h1 h2 ⊢
  rw [decide_eq_true_eq] at h1 h2 ⊢
  rcases h1 with h1 | ⟨h1, hij⟩
  · rcases h2 with h2 | ⟨h2, hjk⟩
    · exact Or.inl (keyLt_trans hp hq hr h1 h2)
    · exact Or.inl (keyLt_keyEq_trans hq hr h1 h2)
  · rcases h2 with h2 | ⟨h2, hjk⟩
    · exact Or.inl (keyEq_keyLt_trans hp hq h1 h2)
    · exact Or.inr ⟨keyEq_trans hq h1 h2, le_trans hij hjk⟩

/-- The signed square `x ↦ x·|x|` is strictly monotone on `ℝ`. -/
theorem signedSq_strictMono : StrictMono (fun x : ℝ => x * |x|) := by
  intro a b hab
  simp only
  rcases le_or_lt 0 a with ha | ha
  · have hb : 0 < b := lt_of_le_of_lt ha hab
    rw [abs_of_nonneg ha, abs_of_pos hb]
    nlinarith
  · rcases le_or_lt 0 b with hb | hb
    · have h1 : a * |a| < 0 := by rw [abs_of_neg ha]; nlinarith
      have h2 : 0 ≤ b * |b| := by rw [abs_of_nonneg hb]; nlinarith
      linarith
    · rw [abs_of_neg ha, abs_of_neg hb]
      nlinarith

theorem signedSq_div_sqrt (d m : ℚ) (hm : 0 < m) :
    ((d : ℝ) / Real.sqrt ((m : ℚ) : ℝ)) * |(d : ℝ) / Real.sqrt ((m : ℚ) : ℝ)| =
      (d : ℝ) * |(d : ℝ)| / ((m : ℚ) : ℝ) := by
  have hm' : (0 : ℝ) < ((m : ℚ) : ℝ) := by exact_mod_cast hm
  rw [abs_div, abs_of_nonneg (Real.sqrt_nonneg _), div_mul_div_comm,
    Real.mul_self_sqrt hm'.le]

/-- `keyLt` decides exactly the strict order of the represented real-valued
similarities `d / √m`. -/
theorem keyLt_iff_div_sqrt_lt (p q : ℚ × ℚ) (hp : 0 < p.2) (hq : 0 < q.2) :
    keyLt p q ↔
      (p.1 : ℝ) / Real.sqrt ((p.2 : ℚ) : ℝ) < (q.1 : ℝ) / Real.sqrt ((q.2 : ℚ) : ℝ) := by
  have hp' : (0 : ℝ) < ((p.2 : ℚ) : ℝ) := by exact_mod_cast hp
  have hq' : (0 : ℝ) < ((q.2 : ℚ) : ℝ) := by exact_mod_cast hq
  rw [← signedSq_strictMono.lt_iff_lt, signedSq_div_sqrt p.1 p.2 hp,
    signedSq_div_sqrt q.1 q.2 hq, div_lt_div_iff₀ hp' hq']
  unfold keyLt
  constructor
  · intro h
    exact_mod_cast h
  · intro h
    exact_mod_cast h

/-- `keyEq` decides exactly equality of the represented real-valued
similarities `d / √m`. -/
theorem keyEq_iff_div_sqrt_eq (p q : ℚ × ℚ) (hp : 0 < p.2) (hq : 0 < q.2) :
    keyEq p q ↔
      (p.1 : ℝ) / Real.sqrt ((p.2 : ℚ) : ℝ) = (q.1 : ℝ) / Real.sqrt ((q.2 : ℚ) : ℝ) := by
  have hp' : (0 : ℝ) < ((p.2 : ℚ) : ℝ) := by exact_mod_cast hp
  have hq' : (0 : ℝ) < ((q.2 : ℚ) : ℝ) := by exact_mod_cast hq
  rw [← signedSq_strictMono.injective.eq_iff, signedSq_div_sqrt p.1 p.2 hp,
    signedSq_div_sqrt q.1 q.2 hq, div_eq_div_iff (ne_of_gt hp') (ne_of_gt hq')]
  unfold keyEq
  constructor
  · intro h
    exact_mod_cast h
  · intro h
    exact_mod_cast h

/-- `keyLt` on `simParts` keys is exactly the strict order of real cosine
similarities. -/
theorem keyLt_iff_cosSim_lt (u v u' v' : List ℚ) :
    keyLt (simParts u v) (simParts u' v') ↔ cosSim u v < cosSim u' v' :=
  keyLt_iff_div_sqrt_lt _ _ (simParts_snd_pos u v) (simParts_snd_pos u' v')

/-- `keyEq` on `simParts` keys is exactly equality of real cosine
similarities. -/
theorem keyEq_iff_cosSim_eq (u v u' v' : List ℚ) :
    keyEq (simParts u v) (simParts u' v') ↔ cosSim u v = cosSim u' v' :=
  keyEq_iff_div_sqrt_eq _ _ (simParts_snd_pos u v) (simParts_snd_pos u' v')

/-! ### Structure of the ranked index list -/

theorem argsortQ_perm (xs : List (ℚ × ℚ)) :
    (argsortQ xs).Perm (List.range xs.length) := isort_perm _ _

theorem argsortQ_sorted (qe : List ℚ) (embs : List (List ℚ)) :
    (argsortQ (simList qe embs)).Pairwise
      (fun i j => simLe (simList qe embs) i j = true) :=
  isort_sorted _ (simLe_total _) (simLe_trans qe embs) _

theorem simList_length (qe : List ℚ) (embs : List (List ℚ)) :
    (simList qe embs).length = embs.length := List.length_map _ _

theorem rankedIndices_perm (embed : String → List ℚ) (st : RagState) (q : String) :
    (rankedIndices embed st q).Perm (List.range st.doc_embeddings.length) := by
  unfold rankedIndices
  refine (List.reverse_perm _).trans ?_
  rw [← simList_length (embed q) st.doc_embeddings]
  exact argsortQ_perm _

theorem rankedIndices_length (embed : String → List ℚ) (st : RagState) (q : String) :
    (rankedIndices embed st q).length = st.doc_embeddings.length := by
  rw [(rankedIndices_perm embed st q).length_eq, List.length_range]

theorem rankedIndices_mem (embed : String → List ℚ) (st : RagState) (q : String)
    (i : Nat) : i ∈ rankedIndices embed st q ↔ i < st.doc_embeddings.length := by
  rw [(rankedIndices_perm embed st q).mem_iff, List.mem_range]

theorem rankedIndices_nodup (embed : String → List ℚ) (st : RagState) (q : String) :
    (rankedIndices embed st q).Nodup :=
  (rankedIndices_perm embed st q).nodup_iff.mpr (List.nodup_range _)

theorem simList_getD (qe : List ℚ) (embs : List (List ℚ)) (i : Nat) :
    (simList qe embs).getD i (0, 1) = simParts qe (embs.getD i []) := by
  by_cases h : i < embs.length
  · rw [List.getD_eq_getElem _ _ (by rw [simList_length]; exact h),
      List.getD_eq_getElem _ _ h]
    simp [simList]
  · rw [List.getD_eq_default _ _ (by rw [simList_length]; omega),
      List.getD_eq_default _ _ (by omega)]
    rw [simParts, if_pos (Or.inr (show dotQ ([] : List ℚ) [] = 0 from rfl))]

/-- In the stable-tie refinement modelled by `argsortQ`, the ranked index
list is sorted by real cosine similarity descending, ties broken by
descending ordinal.  (Only its tie-insensitive consequences — permutation
and weak descending order — are claimed of the program universally.) -/
theorem rankedIndices_pairwise (embed : String → List ℚ) (st : RagState)
    (q : String) :
    (rankedIndices embed st q).Pairwise (fun i j =>
      cosSim (embed q) (st.doc_embeddings.getD j []) <
          cosSim (embed q) (st.doc_embeddings.getD i []) ∨
        (cosSim (embed q) (st.doc_embeddings.getD i []) =
            cosSim (embed q) (st.doc_embeddings.getD j []) ∧ j < i)) := by
  have hs : (rankedIndices embed st q).Pairwise (fun i j =>
      simLe (simList (embed q) st.doc_embeddings) j i = true) := by
    unfold rankedIndices
    exact List.pairwise_reverse.mpr (argsortQ_sorted (embed q) st.doc_embeddings)
  have hnd : (rankedIndices embed st q).Pairwise (fun i j => i ≠ j) :=
    rankedIndices_nodup embed st q
  refine (hs.and hnd).imp ?_
  rintro i j ⟨hle, hne⟩
  unfold simLe at hle
  rw [decide_eq_true_eq] at hle
  rw [simList_getD, simList_getD] at hle
  rcases hle with hlt | ⟨heq, hji⟩
  · exact Or.inl ((keyLt_iff_cosSim_lt _ _ _ _).mp hlt)
  · exact Or.inr ⟨((keyEq_iff_cosSim_eq _ _ _ _).mp heq).symm,
      lt_of_le_of_ne hji (fun h => hne h.symm)⟩

/-! ### Claim theorems -/

/-- C5 counterexample: `split_text` with the negative chunk size `-1` does
**not** fail fast with an `InvalidChunkSize`-style error — it silently
returns the empty chunk list, because `range(0, len(words), -1)` is empty. -/
theorem C5_counterexample :
    split_text "a b c" (-1) = .ok [] ∧
      ∀ e : PyErr, split_text "a b c" (-1) ≠ .error e := by
  refine ⟨rfl, ?_⟩
  intro e h
  rw [show split_text "a b c" (-1) = .ok [] from rfl] at h
  exact Except.noConfusion h

/-- C5 (amended): a zero chunk size makes `split_text` raise `ValueError`
(from `range`, not a distinct `InvalidChunkSize`), while a negative chunk
size makes it silently return an empty list — it never loops forever, but it
does silently return a result for negative sizes. -/
theorem C5_nonpositive_size (text : String) (size : Int) :
    (size = 0 → split_text text size = .error .valueError) ∧
      (size < 0 → split_text text size = .ok []) :=
  ⟨fun h => h ▸ split_text_zero text, fun h => split_text_neg text size h⟩

theorem C5_nonpositive_size_witness :
    (split_text "x y" 0 = .error .valueError) ∧ (split_text "x y" (-2) = .ok []) :=
  ⟨(C5_nonpositive_size "x y" 0).1 rfl, (C5_nonpositive_size "x y" (-2)).2 (by decide)⟩

/-- C6: for every text and every positive chunk size `S`, `split_text`
produces exactly `⌈N/S⌉ = (N + S - 1) / S` chunks, where `N` is the number of
whitespace-delimited tokens; in particular whitespace-only (or empty) input
produces zero chunks. -/
theorem C6_chunk_count (text : String) (size : Int) (hpos : 0 < size) :
    ∃ chunks, split_text text size = .ok chunks ∧
      chunks.length =
        ((splitWordsC text.toList).length + size.toNat - 1) / size.toNat ∧
      ((∀ ch ∈ text.toList, ch.isWhitespace = true) → chunks = []) := by
  obtain ⟨S, rfl⟩ : ∃ S : Nat, size = (S : Int) := ⟨size.toNat, by omega⟩
  have hS : 0 < S := by exact_mod_cast hpos
  refine ⟨_, split_text_pos text S hS, ?_, ?_⟩
  · rw [List.length_map, List.length_range, Int.toNat_natCast]
  · intro hws
    rw [splitWordsC_all_ws text.toList hws]
    have h0 : (([] : List (List Char)).length + S - 1) / S = 0 :=
      Nat.div_eq_of_lt (by simp; omega)
    rw [h0]
    rfl

theorem C6_chunk_count_witness :
    (0 : Int) < 2 ∧
      ∃ chunks, split_text "apple banana cherry date elderberry" 2 = .ok chunks ∧
        chunks.length =
          ((splitWordsC "apple banana cherry date elderberry".toList).length +
            (2 : Int).toNat - 1) / (2 : Int).toNat ∧
        ((∀ ch ∈ "apple banana cherry date elderberry".toList,
            ch.isWhitespace = true) → chunks = []) :=
  ⟨by decide, C6_chunk_count "apple banana cherry date elderberry" 2 (by decide)⟩

/-- C8: `get_top_chunks` on a store with zero chunks returns the `None`
sentinel — not an empty list and not an error (the `Option String` result has
no error case, and `none ≠ some ""`). -/
theorem C8_empty_store (embed : String → List ℚ) (st : RagState) (q : String)
    (k : Nat) (h : st.doc_chunks = []) : get_top_chunks embed st q k = none := by
  unfold get_top_chunks
  rw [if_pos (Or.inl h)]

theorem C8_empty_store_witness :
    get_top_chunks (fun _ => [(1 : ℚ)]) initialState "q" 3 = none :=
  C8_empty_store _ _ _ _ rfl

/-- C7: for every positive chunk size, chunk `i` consists of tokens
`[i·S, (i+1)·S)` re-joined with single spaces, and re-tokenizing all chunks
in ordinal order reproduces exactly the original token sequence. -/
theorem C7_reconstruction (text : String) (size : Int) (hpos : 0 < size) :
    ∃ chunks, split_text text size = .ok chunks ∧
      (∀ i, i < chunks.length →
        chunks.getD i "" =
          String.mk (joinSp
            (((splitWordsC text.toList).drop (i * size.toNat)).take size.toNat))) ∧
      (chunks.map (fun c => splitWordsC c.toList)).flatten = splitWordsC text.toList := by
  obtain ⟨S, rfl⟩ : ∃ S : Nat, size = (S : Int) := ⟨size.toNat, by omega⟩
  have hS : 0 < S := by exact_mod_cast hpos
  refine ⟨_, split_text_pos text S hS, ?_, ?_⟩
  · intro i hi
    rw [List.length_map, List.length_range] at hi
    rw [List.getD_eq_getElem _ _ (by rw [List.length_map, List.length_range]; exact hi),
      List.getElem_map, List.getElem_range, Int.toNat_natCast]
  · rw [List.map_map]
    have hmap : (List.range (((splitWordsC text.toList).length + S - 1) / S)).map
          ((fun c => splitWordsC c.toList) ∘ (fun j : Nat =>
            String.mk (joinSp (((splitWordsC text.toList).drop (j * S)).take S)))) =
        (List.range (((splitWordsC text.toList).length + S - 1) / S)).map
          (fun j : Nat => ((splitWordsC text.toList).drop (j * S)).take S) := by
      apply List.map_congr_left
      intro j _
      simp only [Function.comp]
      apply splitWordsC_joinSp
      intro w hw
      exact splitWordsC_clean text.toList w
        (List.mem_of_mem_drop (List.mem_of_mem_take hw))
    rw [hmap]
    apply join_groups
    have h1 := Nat.div_add_mod ((splitWordsC text.toList).length + S - 1) S
    have h2 : ((splitWordsC text.toList).length + S - 1) % S < S :=
      Nat.mod_lt _ hS
    have h3 : (splitWordsC text.toList).length ≤
        S * (((splitWordsC text.toList).length + S - 1) / S) := by omega
    calc (splitWordsC text.toList).length
        ≤ S * (((splitWordsC text.toList).length + S - 1) / S) := h3
      _ = (((splitWordsC text.toList).length + S - 1) / S) * S := Nat.mul_comm _ _

theorem C7_reconstruction_witness :
    (0 : Int) < 2 ∧
      ∃ chunks, split_text "apple banana cherry date elderberry" 2 = .ok chunks ∧
        (∀ i, i < chunks.length →
          chunks.getD i "" =
            String.mk (joinSp
              (((splitWordsC "apple banana cherry date elderberry".toList).drop
                (i * (2 : Int).toNat)).take (2 : Int).toNat))) ∧
        (chunks.map (fun c => splitWordsC c.toList)).flatten =
          splitWordsC "apple banana cherry date elderberry".toList :=
  ⟨by decide, C7_reconstruction "apple banana cherry date elderberry" 2 (by decide)⟩

/-- C2 counterexample: an ingestion whose embedding step fails does **not**
leave the store as it was.  Starting from a store populated by a successful
`ingest_from_text` of `"old"`, a second call on `"new"` whose `encode` raises
replaces `doc_chunks` but keeps the stale `doc_embeddings`. -/
theorem C2_counterexample :
    (ingest_from_text (fun _ => .error "model down")
        ((ingest_from_text (fun cs => .ok (cs.map (fun _ => [(1 : ℚ)])))
          initialState "old").1) "new").1 ≠
      (ingest_from_text (fun cs => .ok (cs.map (fun _ => [(1 : ℚ)])))
        initialState "old").1 := by
  decide

/-- C2 (amended): a failure **before** the first global assignment (for
example PDF text extraction) leaves the store exactly as it was, but a
failure of the embedding step happens after `doc_chunks` has been replaced:
the call then returns a failure message with the store holding the new
chunks and the previous embeddings — replacement is not all-or-nothing. -/
theorem C2_failed_ingest :
    (∀ (extract : String → Except String String)
        (encode : List String → Except String (List (List ℚ)))
        (st : RagState) (f e : String),
      extract f = .error e →
        ingest_from_pdf extract encode st f = (st, pdfFailMsg e)) ∧
    (∀ (encode : List String → Except String (List (List ℚ)))
        (st : RagState) (text e : String) (chunks : List String),
      split_text text CHUNK_SIZE = .ok chunks →
      encode chunks = .error e →
        ingest_from_text encode st text =
          (⟨chunks, st.doc_embeddings⟩, textFailMsg e)) := by
  constructor
  · intro extract encode st f e hx
    unfold ingest_from_pdf
    rw [hx]
  · intro encode st text e chunks hs he
    unfold ingest_from_text
    simp only [hs, he]

theorem C2_failed_ingest_witness :
    (ingest_from_pdf (fun _ => .error "bad pdf")
        (fun cs => .ok (cs.map (fun _ => [(1 : ℚ)]))) initialState "f" =
      (initialState, pdfFailMsg "bad pdf")) ∧
    (ingest_from_text (fun _ => .error "down") initialState "hi there" =
      (⟨["hi there"], []⟩, textFailMsg "down")) :=
  ⟨C2_failed_ingest.1 _ _ _ _ _ rfl,
    C2_failed_ingest.2 (fun _ => .error "down") initialState "hi there" "down"
      ["hi there"] rfl rfl⟩

/-- C3 counterexample: the sequence «successful `ingest_from_text "x"`, then
`ingest_from_text ""` whose embedding step fails» ends in a state with `0`
chunks but `1` stored vector — chunk count and vector count disagree. -/
theorem C3_counterexample :
    ((ingest_from_text (fun _ => .error "model down")
        ((ingest_from_text (fun cs => .ok (cs.map (fun _ => [(1 : ℚ)])))
          initialState "x").1) "").1.doc_chunks.length ≠
      (ingest_from_text (fun _ => .error "model down")
        ((ingest_from_text (fun cs => .ok (cs.map (fun _ => [(1 : ℚ)])))
          initialState "x").1) "").1.doc_embeddings.length) := by
  decide

/-- C3 (amended): every **successful** ingestion installs the new chunks with
their embedding rows — equal counts whenever the embedder returns one row per
input (its contract), and the stored rows are exactly the encode output, so
chunk `i` corresponds positionally to vector `i`.  Search never writes the
store.  But an ingestion whose embedding step fails can leave mismatched
counts (see the counterexample). -/
theorem C3_invariant :
    (∀ (encode : List String → Except String (List (List ℚ)))
        (st : RagState) (text : String) (chunks : List String)
        (es : List (List ℚ)),
      split_text text CHUNK_SIZE = .ok chunks →
      encode chunks = .ok es → es.length = chunks.length →
        ingest_from_text encode st text = (⟨chunks, es⟩, textSuccessMsg chunks.length) ∧
        (⟨chunks, es⟩ : RagState).doc_chunks.length =
          (⟨chunks, es⟩ : RagState).doc_embeddings.length) ∧
    (∀ (extract : String → Except String String)
        (encode : List String → Except String (List (List ℚ)))
        (st : RagState) (f text : String) (chunks : List String)
        (es : List (List ℚ)),
      extract f = .ok text →
      split_text text CHUNK_SIZE = .ok chunks →
      encode chunks = .ok es → es.length = chunks.length →
        ingest_from_pdf extract encode st f = (⟨chunks, es⟩, pdfSuccessMsg chunks.length) ∧
        (⟨chunks, es⟩ : RagState).doc_chunks.length =
          (⟨chunks, es⟩ : RagState).doc_embeddings.length) := by
  constructor
  · intro encode st text chunks es hs he hlen
    constructor
    · unfold ingest_from_text
      simp only [hs, he]
    · simpa using hlen.symm
  · intro extract encode st f text chunks es hx hs he hlen
    constructor
    · unfold ingest_from_pdf
      simp only [hx, hs, he]
    · simpa using hlen.symm

theorem C3_invariant_witness :
    (ingest_from_text (fun cs => .ok (cs.map (fun _ => [(1 : ℚ)])))
        initialState "x" = (⟨["x"], [[1]]⟩, textSuccessMsg 1) ∧
      (⟨["x"], [[1]]⟩ : RagState).doc_chunks.length =
        (⟨["x"], [[1]]⟩ : RagState).doc_embeddings.length) := by
  have h := C3_invariant.1 (fun cs => .ok (cs.map (fun _ => [(1 : ℚ)])))
    initialState "x" ["x"] [[1]] rfl rfl rfl
  exact h

/-- C4 counterexample: with a stored collection of dimension `2` and a query
embedding of dimension `1`, `get_top_chunks` returns `none` — the very same
value as the never-ingested empty store — instead of failing with a distinct
`DimensionMismatch` error kind. -/
theorem C4_counterexample :
    get_top_chunks (fun _ => [(1 : ℚ)]) ⟨["a"], [[1, 0]]⟩ "q" 3 = none ∧
      get_top_chunks (fun _ => [(1 : ℚ)]) initialState "q" 3 = none := by
  constructor
  · decide
  · decide

/-- C4 (amended): when any stored row's dimension differs from the query
embedding's dimension, the `ValueError` raised by `cosine_similarity` is
caught by the `except` handler and `get_top_chunks` returns the `none`
sentinel — indistinguishable from the empty-store result, and never a score
or ranked result. -/
theorem C4_dim_mismatch (embed : String → List ℚ) (st : RagState) (q : String)
    (k : Nat) (v : List ℚ) (hv : v ∈ st.doc_embeddings)
    (hdim : v.length ≠ (embed q).length) :
    get_top_chunks embed st q k = none := by
  unfold get_top_chunks
  by_cases h0 : st.doc_chunks = [] ∨ st.doc_embeddings = []
  · rw [if_pos h0]
  · rw [if_neg h0, if_pos ?_]
    exact List.any_eq_true.mpr ⟨v, hv, by simpa using hdim⟩

theorem C4_dim_mismatch_witness :
    get_top_chunks (fun _ => [(1 : ℚ)]) ⟨["ab"], [[1, 0]]⟩ "q" 3 = none :=
  C4_dim_mismatch _ _ _ _ [1, 0] (by decide) (by decide)

/-- C9: on a populated, dimension-consistent store with `n` chunks,
`get_top_chunks` returns the chunks selected by the first `min(k, n)` ranked
indices, joined into a single ordered sequence; `k = 0` yields the empty
sequence (`some ""` after joining), never an error. -/
theorem C9_top_k (embed : String → List ℚ) (st : RagState) (q : String)
    (k : Nat) (hc : st.doc_chunks ≠ []) (he : st.doc_embeddings ≠ [])
    (hdim : ∀ v ∈ st.doc_embeddings, v.length = (embed q).length)
    (hlen : st.doc_chunks.length = st.doc_embeddings.length) :
    get_top_chunks embed st q k =
      some (joinNl (((rankedIndices embed st q).take k).map
        (fun i => st.doc_chunks.getD i ""))) ∧
      ((rankedIndices embed st q).take k).length = min k st.doc_chunks.length := by
  constructor
  · have hany : (st.doc_embeddings.any
        (fun v => v.length ≠ (embed q).length)) = false := by
      rw [List.any_eq_false]
      intro v hv
      simpa using hdim v hv
    have hfilter : ((rankedIndices embed st q).take k).filter
          (fun i => i < st.doc_chunks.length) =
        (rankedIndices embed st q).take k := by
      rw [List.filter_eq_self]
      intro i hi
      have hmem : i ∈ rankedIndices embed st q := List.mem_of_mem_take hi
      rw [rankedIndices_mem] at hmem
      simp only [decide_eq_true_eq]
      omega
    simp only [get_top_chunks]
    rw [if_neg (by push_neg; exact ⟨hc, he⟩),
      if_neg (by rw [hany]; exact Bool.false_ne_true), hfilter]
  · rw [List.length_take, rankedIndices_length, hlen]

theorem C9_top_k_witness :
    ((["a"] : List String) ≠ [] ∧ ([[(1 : ℚ)]] : List (List ℚ)) ≠ []) ∧
      (get_top_chunks (fun _ => [(1 : ℚ)]) ⟨["a"], [[1]]⟩ "q" 2 =
          some (joinNl (((rankedIndices (fun _ => [(1 : ℚ)]) ⟨["a"], [[1]]⟩ "q").take 2).map
            (fun i => (⟨["a"], [[1]]⟩ : RagState).doc_chunks.getD i ""))) ∧
        ((rankedIndices (fun _ => [(1 : ℚ)]) ⟨["a"], [[1]]⟩ "q").take 2).length =
          min 2 (⟨["a"], [[1]]⟩ : RagState).doc_chunks.length) :=
  ⟨⟨by decide, by decide⟩,
    C9_top_k (fun _ => [(1 : ℚ)]) ⟨["a"], [[1]]⟩ "q" 2 (by decide) (by decide)
      (by decide) (by decide)⟩

/-- C10: each of the four ingestion entry points is a total function of its
(fallible) collaborators' outcomes — every exception of a collaborator is an
`Except.error` consumed by the function — and always returns either the
success message carrying the number of chunks now stored, or a failure
message wrapping the underlying error text. -/
theorem C10_no_exception :
    (∀ (extract : String → Except String String)
        (encode : List String → Except String (List (List ℚ)))
        (st : RagState) (f : String),
      (∃ n, (ingest_from_pdf extract encode st f).2 = pdfSuccessMsg n ∧
          n = (ingest_from_pdf extract encode st f).1.doc_chunks.length) ∨
      (∃ e, (ingest_from_pdf extract encode st f).2 = pdfFailMsg e)) ∧
    (∀ (fetch : String → Except String String)
        (encode : List String → Except String (List (List ℚ)))
        (st : RagState) (url : String),
      (∃ n, (ingest_from_website fetch encode st url).2 = webSuccessMsg url n ∧
          n = (ingest_from_website fetch encode st url).1.doc_chunks.length) ∨
      (∃ e, (ingest_from_website fetch encode st url).2 = webFailMsg url e)) ∧
    (∀ (fetchTranscript : String → Except String String)
        (encode : List String → Except String (List (List ℚ)))
        (st : RagState) (url : String),
      (∃ n, (ingest_from_youtube fetchTranscript encode st url).2 = ytSuccessMsg n ∧
          n = (ingest_from_youtube fetchTranscript encode st url).1.doc_chunks.length) ∨
      (∃ e, (ingest_from_youtube fetchTranscript encode st url).2 = ytFailMsg e)) ∧
    (∀ (encode : List String → Except String (List (List ℚ)))
        (st : RagState) (text : String),
      (∃ n, (ingest_from_text encode st text).2 = textSuccessMsg n ∧
          n = (ingest_from_text encode st text).1.doc_chunks.length) ∨
      (∃ e, (ingest_from_text encode st text).2 = textFailMsg e)) := by
  refine ⟨?_, ?_, ?_, ?_⟩
  · intro extract encode st f
    unfold ingest_from_pdf
    rcases hx : extract f with e | text
    · exact Or.inr ⟨e, by simp [hx]⟩
    · rcases hs : split_text text CHUNK_SIZE with e | chunks
      · exact Or.inr ⟨pyErrMsg e, by simp [hx, hs]⟩
      · rcases hen : encode chunks with e | embs
        · exact Or.inr ⟨e, by simp [hx, hs, hen]⟩
        · exact Or.inl ⟨chunks.length, by simp [hx, hs, hen], by simp [hx, hs, hen]⟩
  · intro fetch encode st url
    unfold ingest_from_website
    rcases hx : fetch url with e | text
    · exact Or.inr ⟨e, by simp [hx]⟩
    · rcases hs : split_text text CHUNK_SIZE with e | chunks
      · exact Or.inr ⟨pyErrMsg e, by simp [hx, hs]⟩
      · rcases hen : encode chunks with e | embs
        · exact Or.inr ⟨e, by simp [hx, hs, hen]⟩
        · exact Or.inl ⟨chunks.length, by simp [hx, hs, hen], by simp [hx, hs, hen]⟩
  · intro fetchTranscript encode st url
    unfold ingest_from_youtube
    rcases hx : fetchTranscript url with e | text
    · exact Or.inr ⟨e, by simp [hx]⟩
    · rcases hs : split_text text CHUNK_SIZE with e | chunks
      · exact Or.inr ⟨pyErrMsg e, by simp [hx, hs]⟩
      · rcases hen : encode chunks with e | embs
        · exact Or.inr ⟨e, by simp [hx, hs, hen]⟩
        · exact Or.inl ⟨chunks.length, by simp [hx, hs, hen], by simp [hx, hs, hen]⟩
  · intro encode st text
    unfold ingest_from_text
    rcases hs : split_text text CHUNK_SIZE with e | chunks
    · exact Or.inr ⟨pyErrMsg e, by simp [hs]⟩
    · rcases hen : encode chunks with e | embs
      · exact Or.inr ⟨e, by simp [hs, hen]⟩
      · exact Or.inl ⟨chunks.length, by simp [hs, hen], by simp [hs, hen]⟩

/-- C1 counterexample: with two stored vectors of **equal** cosine similarity
to the query (here two identical vectors `[1]`), the ranked index list is
`[1, 0]` and the returned sequence is `"b\n\na"` — the chunk with the
**higher** ordinal comes first, not the lower one.  On a two-element array
numpy's default sort provably takes its stable insertion-sort path, so the
model's prediction is exact here: `argsort([1.0, 1.0]) = [0, 1]`, and the
`[::-1]` reversal puts ordinal `1` first. -/
theorem C1_counterexample :
    rankedIndices (fun _ => [(1 : ℚ)]) ⟨["a", "b"], [[1], [1]]⟩ "q" = [1, 0] ∧
      get_top_chunks (fun _ => [(1 : ℚ)]) ⟨["a", "b"], [[1], [1]]⟩ "q" 2 =
        some "b\n\na" ∧
      cosSim [(1 : ℚ)] (([[1], [1]] : List (List ℚ)).getD 0 []) =
        cosSim [(1 : ℚ)] (([[1], [1]] : List (List ℚ)).getD 1 []) := by
  refine ⟨?_, ?_, ?_⟩
  · norm_num [rankedIndices, argsortQ, simList, simParts, dotQ, isort,
      insertAsc, simLe, keyLt, keyEq, List.getD]
  · norm_num [get_top_chunks, rankedIndices, argsortQ, simList, simParts,
      dotQ, isort, insertAsc, simLe, keyLt, keyEq, joinNl, List.getD]
    decide
  · rfl

/-- C1 (amended): `get_top_chunks` does rank chunks by cosine similarity
descending — the ranked index list is a permutation of `0..n-1` pairwise
sorted by weakly descending real cosine similarity, a property independent
of how the sort orders ties — but the claimed ascending-ordinal tie-break
does not hold: the source's unstable default sort specifies no tie order,
and at the two-chunk counterexample (where numpy's insertion-sort path makes
the order exact) the **higher** ordinal is returned first. -/
theorem C1_similarity_ranking (embed : String → List ℚ) (st : RagState)
    (q : String) :
    (rankedIndices embed st q).Perm (List.range st.doc_embeddings.length) ∧
      (rankedIndices embed st q).Pairwise (fun i j =>
        cosSim (embed q) (st.doc_embeddings.getD j []) ≤
          cosSim (embed q) (st.doc_embeddings.getD i [])) :=
  ⟨rankedIndices_perm embed st q,
    (rankedIndices_pairwise embed st q).imp
      (fun h => h.elim le_of_lt (fun hh => hh.1.ge))⟩
